import Mathlib

set_option maxRecDepth 4000

/-!
Verification development for the Agilent `.ch` trace-file converter.

The delta run decoder is embedded from `src/main_program.py` (`chConverter`);
the header and raw-array decoders are embedded from
`src/Old Files/agilent-ch_converter.py` (`CHFile._parse_header`,
`CHFile._parse_data`, `CHFile.times`).

Bytes are modelled as `Fin 256`, which is what Python's binary `read` yields.
IEEE-754 double arithmetic that the claims treat exactly (the scale factor,
deltas times scale, running sums, time axes) is modelled over `ℚ`; the
bit-level decoding of an 8-byte float is kept as an explicit function
parameter `dec` wherever the source performs it, since no claim depends on
the numeric value of a particular float bit pattern.
-/

namespace Agilent

/-- A byte as returned by a binary file read. -/
abbrev Byte := Fin 256

/-- Big-endian signed 16-bit integer from two bytes, as `struct.unpack(">h")`. -/
def int16OfBytes (b1 b2 : Byte) : ℤ :=
  let u : ℤ := (b1.val : ℤ) * 256 + (b2.val : ℤ)
  if u < 32768 then u else u - 65536

/-- Big-endian signed 32-bit integer from four bytes, as `struct.unpack(">i")`. -/
def int32OfBytes (b1 b2 b3 b4 : Byte) : ℤ :=
  let u : ℤ := (((b1.val : ℤ) * 256 + (b2.val : ℤ)) * 256 + (b3.val : ℤ)) * 256 + (b4.val : ℤ)
  if u < 2147483648 then u else u - 4294967296

/-- Error of the delta run decoder.  In the Python source a short read makes
`struct.unpack` raise; the spec calls this condition `TruncatedStream`. -/
inductive DecodeError
  | truncatedStream
  deriving DecidableEq, Repr

/-- One iteration of the inner loop of `chConverter`
(`src/main_program.py` lines 19-26): read one big-endian int16 entry; when it
equals the sentinel `-32768` read a further big-endian int32 and append
`scale * delta32` (the source appends `del_ab * inp` in that branch with no
cumulative term, regardless of how many samples exist); otherwise append
`scale * delta16` when `data` is empty and `data[-1] + scale * delta16`
otherwise.  Returns the grown data list and the unconsumed bytes, or `none`
when the stream is too short (where `struct.unpack` would raise). -/
def readEntry (scale : ℚ) (data : List ℚ) : List Byte → Option (List ℚ × List Byte)
  | b1 :: b2 :: rest =>
    if int16OfBytes b1 b2 = -32768 then
      match rest with
      | c1 :: c2 :: c3 :: c4 :: rest2 =>
          some (data ++ [scale * (int32OfBytes c1 c2 c3 c4 : ℚ)], rest2)
      | _ => none
    else if data = [] then
      some (data ++ [scale * (int16OfBytes b1 b2 : ℚ)], rest)
    else
      some (data ++ [data.getLast! + scale * (int16OfBytes b1 b2 : ℚ)], rest)
  | _ => none

/-- Inner loop of `chConverter` (`src/main_program.py` lines 18-26):
`for _ in range(nrecs)`, one `readEntry` per iteration. -/
def chRun (scale : ℚ) : ℕ → List ℚ → List Byte → Except DecodeError (List ℚ × List Byte)
  | 0, data, s => .ok (data, s)
  | n + 1, data, s =>
    match readEntry scale data s with
    | some (d, s') => chRun scale n d s'
    | none => .error .truncatedStream

theorem readEntry_length_lt (scale : ℚ) (data : List ℚ) (s : List Byte) (d : List ℚ)
    (s' : List Byte) (h : readEntry scale data s = some (d, s')) : s'.length < s.length := by
  match s with
  | [] => unfold readEntry at h; exact absurd h (by dsimp only; exact Option.noConfusion)
  | [b1] => unfold readEntry at h; exact absurd h (by dsimp only; exact Option.noConfusion)
  | b1 :: b2 :: rest =>
    unfold readEntry at h
    dsimp only at h
    by_cases hesc : int16OfBytes b1 b2 = -32768
    · rw [if_pos hesc] at h
      match rest with
      | [] => dsimp only at h; exact absurd h Option.noConfusion
      | [c1] => dsimp only at h; exact absurd h Option.noConfusion
      | [c1, c2] => dsimp only at h; exact absurd h Option.noConfusion
      | [c1, c2, c3] => dsimp only at h; exact absurd h Option.noConfusion
      | c1 :: c2 :: c3 :: c4 :: rest2 =>
        dsimp only at h
        simp only [Option.some.injEq, Prod.mk.injEq] at h
        obtain ⟨-, h2⟩ := h
        subst h2
        simp only [List.length_cons]
        omega
    · rw [if_neg hesc] at h
      by_cases hd : data = []
      · rw [if_pos hd] at h
        simp only [Option.some.injEq, Prod.mk.injEq] at h
        obtain ⟨-, h2⟩ := h
        subst h2
        simp only [List.length_cons]
        omega
      · rw [if_neg hd] at h
        simp only [Option.some.injEq, Prod.mk.injEq] at h
        obtain ⟨-, h2⟩ := h
        subst h2
        simp only [List.length_cons]
        omega

theorem chRun_length_le (scale : ℚ) :
    ∀ (n : ℕ) (data : List ℚ) (s : List Byte) (d : List ℚ) (s' : List Byte),
      chRun scale n data s = .ok (d, s') → s'.length ≤ s.length := by
  intro n
  induction n with
  | zero =>
    intro data s d s' h
    unfold chRun at h
    cases h
    exact le_rfl
  | succ n ih =>
    intro data s d s' h
    unfold chRun at h
    match hr : readEntry scale data s with
    | some (d0, s0) =>
      rw [hr] at h
      dsimp only at h
      have h1 := readEntry_length_lt scale data s d0 s0 hr
      have h2 := ih _ _ _ _ h
      omega
    | none =>
      rw [hr] at h
      exact absurd h Except.noConfusion

/-- Outer loop of `chConverter` (`src/main_program.py` lines 13-27): read the
two unsigned header bytes `(x, nrecs)`; when both are zero stop successfully
with the accumulated data, otherwise decode `nrecs` entries and continue.
Running out of bytes is the `TruncatedStream` error. -/
def chLoop (scale : ℚ) (data : List ℚ) : List Byte → Except DecodeError (List ℚ)
  | x :: nrecs :: rest =>
    if x = (0 : Byte) ∧ nrecs = (0 : Byte) then .ok data
    else
      match hr : chRun scale nrecs.val data rest with
      | .ok (d, rest') => chLoop scale d rest'
      | .error e => .error e
  | _ => .error .truncatedStream
termination_by s => s.length
decreasing_by
  have := chRun_length_le _ _ _ _ _ _ hr
  simp only [List.length_cons]
  omega

/-- Delta run decoder over the byte stream that starts at offset 0x1800
(`src/main_program.py` lines 10-28): the accumulator starts empty. -/
def chConverterCore (scale : ℚ) (s : List Byte) : Except DecodeError (List ℚ) :=
  chLoop scale [] s

/-- Full `chConverter` (`src/main_program.py` lines 6-28): read the 8-byte
big-endian double at offset 0x127C as the scale factor (its bit-level IEEE-754
decoding is the parameter `dec`), then decode the delta stream starting at
offset 0x1800. -/
def chConverter (dec : List Byte → ℚ) (file : List Byte) : Except DecodeError (List ℚ) :=
  if 0x127C + 8 ≤ file.length then
    chConverterCore (dec ((file.drop 0x127C).take 8)) (file.drop 0x1800)
  else .error .truncatedStream

theorem readEntry_escape (scale : ℚ) (data : List ℚ) (b1 b2 c1 c2 c3 c4 : Byte)
    (rest : List Byte) (h : int16OfBytes b1 b2 = -32768) :
    readEntry scale data (b1 :: b2 :: c1 :: c2 :: c3 :: c4 :: rest) =
      some (data ++ [scale * (int32OfBytes c1 c2 c3 c4 : ℚ)], rest) := by
  unfold readEntry
  dsimp only
  rw [if_pos h]

theorem readEntry_first (scale : ℚ) (b1 b2 : Byte) (rest : List Byte)
    (h : int16OfBytes b1 b2 ≠ -32768) :
    readEntry scale [] (b1 :: b2 :: rest) = some ([scale * (int16OfBytes b1 b2 : ℚ)], rest) := by
  unfold readEntry
  dsimp only
  rw [if_neg h, if_pos rfl]
  rfl

theorem readEntry_next (scale : ℚ) (data : List ℚ) (b1 b2 : Byte) (rest : List Byte)
    (h : int16OfBytes b1 b2 ≠ -32768) (hd : data ≠ []) :
    readEntry scale data (b1 :: b2 :: rest) =
      some (data ++ [data.getLast! + scale * (int16OfBytes b1 b2 : ℚ)], rest) := by
  unfold readEntry
  dsimp only
  rw [if_neg h, if_neg hd]

theorem chRun_zero (scale : ℚ) (data : List ℚ) (s : List Byte) :
    chRun scale 0 data s = .ok (data, s) := rfl

theorem chRun_succ_some (scale : ℚ) (n : ℕ) (data d : List ℚ) (s s' : List Byte)
    (h : readEntry scale data s = some (d, s')) :
    chRun scale (n + 1) data s = chRun scale n d s' := by
  conv_lhs => unfold chRun
  rw [h]

theorem chRun_succ_none (scale : ℚ) (n : ℕ) (data : List ℚ) (s : List Byte)
    (h : readEntry scale data s = none) :
    chRun scale (n + 1) data s = .error .truncatedStream := by
  conv_lhs => unfold chRun
  rw [h]

theorem chLoop_term (scale : ℚ) (data : List ℚ) (rest : List Byte) :
    chLoop scale data ((0 : Byte) :: (0 : Byte) :: rest) = .ok data := by
  conv_lhs => unfold chLoop
  rw [if_pos ⟨rfl, rfl⟩]

theorem chLoop_step_ok (scale : ℚ) (data d : List ℚ) (x nrecs : Byte) (rest rest' : List Byte)
    (h : ¬(x = (0 : Byte) ∧ nrecs = (0 : Byte)))
    (hr : chRun scale nrecs.val data rest = .ok (d, rest')) :
    chLoop scale data (x :: nrecs :: rest) = chLoop scale d rest' := by
  conv_lhs => unfold chLoop
  rw [if_neg h]
  split
  next d0 r0 heq => rw [hr] at heq; try cases heq; try rfl
  next e heq => rw [hr] at heq; try cases heq; try rfl

theorem chLoop_step_err (scale : ℚ) (data : List ℚ) (x nrecs : Byte) (rest : List Byte)
    (e : DecodeError) (h : ¬(x = (0 : Byte) ∧ nrecs = (0 : Byte)))
    (hr : chRun scale nrecs.val data rest = .error e) :
    chLoop scale data (x :: nrecs :: rest) = .error e := by
  conv_lhs => unfold chLoop
  rw [if_neg h]
  split
  next d0 r0 heq => rw [hr] at heq; cases heq
  next e0 heq => rw [hr] at heq; try cases heq; try rfl

theorem chLoop_nil (scale : ℚ) (data : List ℚ) :
    chLoop scale data [] = .error .truncatedStream := by
  unfold chLoop
  rfl

theorem chLoop_single (scale : ℚ) (data : List ℚ) (b : Byte) :
    chLoop scale data [b] = .error .truncatedStream := by
  unfold chLoop
  rfl

/-- Bytes consumed by one delta entry (2 for a direct int16, 6 when the int16
is the `-32768` escape): the stream left over, or `none` on a short stream.
Helper used to state stream-structure properties of the decoder; it is linked
to `readEntry` by `readEntry_entryBytes`. -/
def entryBytes : List Byte → Option (List Byte)
  | b1 :: b2 :: rest =>
    if int16OfBytes b1 b2 = -32768 then
      match rest with
      | _ :: _ :: _ :: _ :: rest2 => some rest2
      | _ => none
    else some rest
  | _ => none

/-- Stream left after consuming `n` delta entries. -/
def entrySkip : ℕ → List Byte → Option (List Byte)
  | 0, s => some s
  | n + 1, s =>
    match entryBytes s with
    | some s' => entrySkip n s'
    | none => none

theorem entryBytes_length_lt (s s' : List Byte) (h : entryBytes s = some s') :
    s'.length < s.length := by
  match s with
  | [] => unfold entryBytes at h; exact absurd h (by dsimp only; exact Option.noConfusion)
  | [b1] => unfold entryBytes at h; exact absurd h (by dsimp only; exact Option.noConfusion)
  | b1 :: b2 :: rest =>
    unfold entryBytes at h
    dsimp only at h
    by_cases hesc : int16OfBytes b1 b2 = -32768
    · rw [if_pos hesc] at h
      match rest with
      | [] => dsimp only at h; exact absurd h Option.noConfusion
      | [c1] => dsimp only at h; exact absurd h Option.noConfusion
      | [c1, c2] => dsimp only at h; exact absurd h Option.noConfusion
      | [c1, c2, c3] => dsimp only at h; exact absurd h Option.noConfusion
      | c1 :: c2 :: c3 :: c4 :: rest2 =>
        dsimp only at h
        cases h
        simp only [List.length_cons]
        omega
    · rw [if_neg hesc] at h
      cases h
      simp only [List.length_cons]
      omega

theorem entrySkip_length_le :
    ∀ (n : ℕ) (s s' : List Byte), entrySkip n s = some s' → s'.length ≤ s.length := by
  intro n
  induction n with
  | zero =>
    intro s s' h
    unfold entrySkip at h
    cases h
    exact le_rfl
  | succ n ih =>
    intro s s' h
    unfold entrySkip at h
    match hb : entryBytes s with
    | some s0 =>
      rw [hb] at h
      dsimp only at h
      have := entryBytes_length_lt s s0 hb
      have := ih _ _ h
      omega
    | none =>
      rw [hb] at h
      exact absurd h Option.noConfusion

theorem readEntry_entryBytes (scale : ℚ) (data : List ℚ) (s : List Byte) (d : List ℚ)
    (s' : List Byte) (h : readEntry scale data s = some (d, s')) :
    entryBytes s = some s' ∧ d.length = data.length + 1 ∧ s' <:+ s := by
  match s with
  | [] => unfold readEntry at h; exact absurd h (by dsimp only; exact Option.noConfusion)
  | [b1] => unfold readEntry at h; exact absurd h (by dsimp only; exact Option.noConfusion)
  | b1 :: b2 :: rest =>
    unfold readEntry at h
    dsimp only at h
    unfold entryBytes
    dsimp only
    by_cases hesc : int16OfBytes b1 b2 = -32768
    · rw [if_pos hesc] at h ⊢
      match rest with
      | [] => dsimp only at h; exact absurd h Option.noConfusion
      | [c1] => dsimp only at h; exact absurd h Option.noConfusion
      | [c1, c2] => dsimp only at h; exact absurd h Option.noConfusion
      | [c1, c2, c3] => dsimp only at h; exact absurd h Option.noConfusion
      | c1 :: c2 :: c3 :: c4 :: rest2 =>
        dsimp only at h ⊢
        simp only [Option.some.injEq, Prod.mk.injEq] at h
        obtain ⟨h1, h2⟩ := h
        subst h1 h2
        refine ⟨rfl, by simp, ⟨[b1, b2, c1, c2, c3, c4], rfl⟩⟩
    · rw [if_neg hesc] at h ⊢
      by_cases hd : data = []
      · rw [if_pos hd] at h
        simp only [Option.some.injEq, Prod.mk.injEq] at h
        obtain ⟨h1, h2⟩ := h
        subst h1 h2
        exact ⟨rfl, by simp [hd], ⟨[b1, b2], rfl⟩⟩
      · rw [if_neg hd] at h
        simp only [Option.some.injEq, Prod.mk.injEq] at h
        obtain ⟨h1, h2⟩ := h
        subst h1 h2
        exact ⟨rfl, by simp, ⟨[b1, b2], rfl⟩⟩

theorem chRun_entrySkip (scale : ℚ) :
    ∀ (n : ℕ) (data : List ℚ) (s : List Byte) (d : List ℚ) (s' : List Byte),
      chRun scale n data s = .ok (d, s') →
      entrySkip n s = some s' ∧ d.length = data.length + n ∧ s' <:+ s := by
  intro n
  induction n with
  | zero =>
    intro data s d s' h
    unfold chRun at h
    cases h
    exact ⟨rfl, rfl, List.suffix_refl s⟩
  | succ n ih =>
    intro data s d s' h
    unfold chRun at h
    match hr : readEntry scale data s with
    | some (d0, s0) =>
      rw [hr] at h
      dsimp only at h
      obtain ⟨he, hl, hs⟩ := readEntry_entryBytes scale data s d0 s0 hr
      obtain ⟨he', hl', hs'⟩ := ih _ _ _ _ h
      refine ⟨?_, by omega, hs'.trans hs⟩
      unfold entrySkip
      rw [he]
      exact he'
    | none =>
      rw [hr] at h
      exact absurd h Except.noConfusion

/-- Sum of the `runLength` header bytes of the run records of a stream, up to
and including the first `(0, 0)` terminator pair reached by the run structure;
`none` when the stream is truncated before that point. -/
def runSum : List Byte → Option ℕ
  | x :: nrecs :: rest =>
    if x = (0 : Byte) ∧ nrecs = (0 : Byte) then some 0
    else
      match hr : entrySkip nrecs.val rest with
      | some rest' => (runSum rest').map (fun k => k + nrecs.val)
      | none => none
  | _ => none
termination_by s => s.length
decreasing_by
  have := entrySkip_length_le _ _ _ hr
  simp only [List.length_cons]
  omega

theorem runSum_term (rest : List Byte) : runSum ((0 : Byte) :: (0 : Byte) :: rest) = some 0 := by
  conv_lhs => unfold runSum
  rw [if_pos ⟨rfl, rfl⟩]

theorem runSum_step (x nrecs : Byte) (rest rest' : List Byte) (k : ℕ)
    (h : ¬(x = (0 : Byte) ∧ nrecs = (0 : Byte)))
    (hs : entrySkip nrecs.val rest = some rest') (hk : runSum rest' = some k) :
    runSum (x :: nrecs :: rest) = some (k + nrecs.val) := by
  conv_lhs => unfold runSum
  rw [if_neg h]
  split
  next r0 heq =>
    rw [hs] at heq
    cases heq
    rw [hk]
    rfl
  next heq => rw [hs] at heq; cases heq

theorem chLoop_ok_runSum (scale : ℚ) :
    ∀ (N : ℕ) (s : List Byte), s.length ≤ N →
      ∀ (data d : List ℚ), chLoop scale data s = .ok d →
        ∃ k, runSum s = some k ∧ d.length = data.length + k := by
  intro N
  induction N with
  | zero =>
    intro s hN data d h
    match s with
    | [] => rw [chLoop_nil] at h; exact absurd h Except.noConfusion
    | b :: s0 => simp at hN
  | succ N ih =>
    intro s hN data d h
    match s with
    | [] => rw [chLoop_nil] at h; exact absurd h Except.noConfusion
    | [b] => rw [chLoop_single] at h; exact absurd h Except.noConfusion
    | x :: nrecs :: rest =>
      by_cases hx : x = (0 : Byte) ∧ nrecs = (0 : Byte)
      · obtain ⟨hx1, hx2⟩ := hx
        subst hx1 hx2
        rw [chLoop_term] at h
        cases h
        exact ⟨0, runSum_term rest, by omega⟩
      · cases hr : chRun scale nrecs.val data rest with
        | error e =>
          rw [chLoop_step_err _ _ _ _ _ _ hx hr] at h
          exact absurd h Except.noConfusion
        | ok p =>
          obtain ⟨d0, rest'⟩ := p
          rw [chLoop_step_ok _ _ _ _ _ _ _ hx hr] at h
          obtain ⟨hsk, hlen, hsuf⟩ := chRun_entrySkip scale nrecs.val data rest d0 rest' hr
          have hle : rest'.length ≤ N := by
            have := hsuf.length_le
            simp only [List.length_cons] at hN
            omega
          obtain ⟨k, hk1, hk2⟩ := ih rest' hle d0 d h
          exact ⟨k + nrecs.val, runSum_step x nrecs rest rest' k hx hsk hk1, by omega⟩

theorem chLoop_ok_sentinel (scale : ℚ) :
    ∀ (N : ℕ) (s : List Byte), s.length ≤ N →
      ∀ (data d : List ℚ), chLoop scale data s = .ok d →
        ∃ u v, s = u ++ (0 : Byte) :: (0 : Byte) :: v := by
  intro N
  induction N with
  | zero =>
    intro s hN data d h
    match s with
    | [] => rw [chLoop_nil] at h; exact absurd h Except.noConfusion
    | b :: s0 => simp at hN
  | succ N ih =>
    intro s hN data d h
    match s with
    | [] => rw [chLoop_nil] at h; exact absurd h Except.noConfusion
    | [b] => rw [chLoop_single] at h; exact absurd h Except.noConfusion
    | x :: nrecs :: rest =>
      by_cases hx : x = (0 : Byte) ∧ nrecs = (0 : Byte)
      · obtain ⟨hx1, hx2⟩ := hx
        subst hx1 hx2
        exact ⟨[], rest, rfl⟩
      · cases hr : chRun scale nrecs.val data rest with
        | error e =>
          rw [chLoop_step_err _ _ _ _ _ _ hx hr] at h
          exact absurd h Except.noConfusion
        | ok p =>
          obtain ⟨d0, rest'⟩ := p
          rw [chLoop_step_ok _ _ _ _ _ _ _ hx hr] at h
          obtain ⟨hsk, hlen, hsuf⟩ := chRun_entrySkip scale nrecs.val data rest d0 rest' hr
          have hle : rest'.length ≤ N := by
            have := hsuf.length_le
            simp only [List.length_cons] at hN
            omega
          obtain ⟨u, v, huv⟩ := ih rest' hle d0 d h
          obtain ⟨w, hw⟩ := hsuf
          refine ⟨x :: nrecs :: w ++ u, v, ?_⟩
          rw [← hw, huv]
          simp

/-- Claim C2: for every non-escaped signed 16-bit delta the decoder appends
`scale * delta16` when it produces the very first sample overall and
`previousSample + scale * delta16` otherwise; in particular the run
`(flag=1, runLength=3, deltas=[10, -5, 2])` with scale `0.5` decodes to
exactly `[5.0, 2.5, 3.5]`. -/
theorem C2_direct_delta_rule :
    (∀ (scale : ℚ) (b1 b2 : Byte) (rest : List Byte),
        int16OfBytes b1 b2 ≠ -32768 →
        readEntry scale [] (b1 :: b2 :: rest) =
          some ([scale * (int16OfBytes b1 b2 : ℚ)], rest))
    ∧ (∀ (scale : ℚ) (data : List ℚ) (b1 b2 : Byte) (rest : List Byte),
        int16OfBytes b1 b2 ≠ -32768 → data ≠ [] →
        readEntry scale data (b1 :: b2 :: rest) =
          some (data ++ [data.getLast! + scale * (int16OfBytes b1 b2 : ℚ)], rest))
    ∧ chConverterCore (1/2) [1, 3, 0, 10, 255, 251, 0, 2, 0, 0] = .ok [5, 5/2, 7/2] := by
  refine ⟨readEntry_first, readEntry_next, ?_⟩
  unfold chConverterCore
  have h1 : readEntry (1/2 : ℚ) [] [0, 10, 255, 251, 0, 2, 0, 0] =
      some ([5], [255, 251, 0, 2, 0, 0]) := by
    rw [readEntry_first _ _ _ _ (by decide), show int16OfBytes 0 10 = 10 from by decide]
    norm_num
  have h2 : readEntry (1/2 : ℚ) [5] [255, 251, 0, 2, 0, 0] =
      some ([5, 5/2], [0, 2, 0, 0]) := by
    rw [readEntry_next _ _ _ _ _ (by decide) (by simp),
      show int16OfBytes 255 251 = -5 from by decide]
    norm_num [List.getLast!]
  have h3 : readEntry (1/2 : ℚ) [5, 5/2] [0, 2, 0, 0] =
      some ([5, 5/2, 7/2], [0, 0]) := by
    rw [readEntry_next _ _ _ _ _ (by decide) (by simp),
      show int16OfBytes 0 2 = 2 from by decide]
    norm_num [List.getLast!]
  have hr : chRun (1/2 : ℚ) 3 [] [0, 10, 255, 251, 0, 2, 0, 0] =
      .ok ([5, 5/2, 7/2], [0, 0]) := by
    rw [chRun_succ_some _ _ _ _ _ _ h1, chRun_succ_some _ _ _ _ _ _ h2,
      chRun_succ_some _ _ _ _ _ _ h3]
    exact chRun_zero _ _ _
  rw [chLoop_step_ok _ _ _ _ _ _ _ (by decide) hr]
  exact chLoop_term _ _ _

/-- Witness for C2: a concrete non-escaped delta with a nonempty accumulator
adds `previousSample + scale * delta16`. -/
theorem C2_direct_delta_rule_witness :
    readEntry (2 : ℚ) [3] [0, 7, 9] = some ([3, 17], [9]) := by
  have h := C2_direct_delta_rule.2.1 2 [3] 0 7 [9] (by decide) (by simp)
  rw [show int16OfBytes 0 7 = 7 from by decide] at h
  rw [h]
  norm_num [List.getLast!]

/-- Claim C1 counterexample: in the source every escaped 32-bit value is
appended as `scale * delta32` even when samples already exist.  In the stream
below the second entry is an escape with `delta32 = 7` after a first sample
`5` with scale `1`; the decoder yields `7`, not the `previousSample + scale *
delta32 = 12` the claim requires for escapes occurring after the first
sample. -/
theorem C1_counterexample :
    chConverterCore 1 [1, 2, 0, 5, 128, 0, 0, 0, 0, 7, 0, 0] = .ok [5, 7]
    ∧ ([5, 7] : List ℚ) ≠ [5, 5 + 1 * 7] := by
  constructor
  · unfold chConverterCore
    have h1 : readEntry (1 : ℚ) [] [0, 5, 128, 0, 0, 0, 0, 7, 0, 0] =
        some ([5], [128, 0, 0, 0, 0, 7, 0, 0]) := by
      rw [readEntry_first _ _ _ _ (by decide), show int16OfBytes 0 5 = 5 from by decide]
      norm_num
    have h2 : readEntry (1 : ℚ) [5] [128, 0, 0, 0, 0, 7, 0, 0] =
        some ([5, 7], [0, 0]) := by
      rw [readEntry_escape _ _ _ _ _ _ _ _ _ (by decide),
        show int32OfBytes 0 0 0 7 = 7 from by decide]
      norm_num
    have hr : chRun (1 : ℚ) 2 [] [0, 5, 128, 0, 0, 0, 0, 7, 0, 0] = .ok ([5, 7], [0, 0]) := by
      rw [chRun_succ_some _ _ _ _ _ _ h1, chRun_succ_some _ _ _ _ _ _ h2]
      exact chRun_zero _ _ _
    rw [chLoop_step_ok _ _ _ _ _ _ _ (by decide) hr]
    exact chLoop_term _ _ _
  · intro h
    simp only [List.cons.injEq] at h
    norm_num at h

/-- Claim C1 as amended: every escaped 32-bit value, whether or not samples
have been produced before it, is decoded as `scale * delta32` (absolute
interpretation); the cumulative `previousSample + ...` form is never used for
escapes. -/
theorem C1_escape_always_absolute :
    ∀ (scale : ℚ) (data : List ℚ) (b1 b2 c1 c2 c3 c4 : Byte) (rest : List Byte),
      int16OfBytes b1 b2 = -32768 →
      readEntry scale data (b1 :: b2 :: c1 :: c2 :: c3 :: c4 :: rest) =
        some (data ++ [scale * (int32OfBytes c1 c2 c3 c4 : ℚ)], rest) :=
  fun scale data b1 b2 c1 c2 c3 c4 rest h =>
    readEntry_escape scale data b1 b2 c1 c2 c3 c4 rest h

/-- Witness for the amended C1: a concrete mid-stream escape (accumulator
already holds the sample 5) decodes the escaped value 7 absolutely. -/
theorem C1_escape_always_absolute_witness :
    readEntry (1 : ℚ) [5] [128, 0, 0, 0, 0, 7] = some ([5, 7], []) := by
  have h := C1_escape_always_absolute 1 [5] 128 0 0 0 0 7 [] (by decide)
  rw [show int32OfBytes 0 0 0 7 = 7 from by decide] at h
  rw [h]
  norm_num

/-- Claim C4: the delta decoder completes normally exactly on a run-header
pair whose two bytes are both zero, returning the accumulated samples; any
stream returning `.ok` contains that sentinel pair, while end-of-stream at a
header, inside a run, or after an odd header byte is the fatal
`TruncatedStream` error, never a normal completion. -/
theorem C4_terminal_detection :
    (∀ (scale : ℚ) (data : List ℚ) (rest : List Byte),
        chLoop scale data ((0 : Byte) :: (0 : Byte) :: rest) = .ok data)
    ∧ (∀ (scale : ℚ) (data d : List ℚ) (s : List Byte),
        chLoop scale data s = .ok d → ∃ u v, s = u ++ (0 : Byte) :: (0 : Byte) :: v)
    ∧ (∀ (scale : ℚ) (data : List ℚ),
        chLoop scale data [] = .error .truncatedStream)
    ∧ (∀ (scale : ℚ) (data : List ℚ) (b : Byte),
        chLoop scale data [b] = .error .truncatedStream)
    ∧ chConverterCore 1 [1, 2, 0, 5] = .error .truncatedStream := by
  refine ⟨chLoop_term, ?_, chLoop_nil, chLoop_single, ?_⟩
  · intro scale data d s h
    exact chLoop_ok_sentinel scale s.length s le_rfl data d h
  · unfold chConverterCore
    have h1 : readEntry (1 : ℚ) [] [0, 5] = some ([5], []) := by
      rw [readEntry_first _ _ _ _ (by decide), show int16OfBytes 0 5 = 5 from by decide]
      norm_num
    have hr : chRun (1 : ℚ) 2 [] [0, 5] = .error .truncatedStream := by
      rw [chRun_succ_some _ _ _ _ _ _ h1]
      exact chRun_succ_none _ _ _ _ rfl
    exact chLoop_step_err _ _ _ _ _ _ (by decide) hr

/-- Witness for C4: the stream `[0, 0]` returns `.ok` and therefore contains
the `(0, 0)` sentinel pair. -/
theorem C4_terminal_detection_witness :
    ∃ u v, ([0, 0] : List Byte) = u ++ (0 : Byte) :: (0 : Byte) :: v :=
  C4_terminal_detection.2.1 1 [] [] [0, 0] (C4_terminal_detection.1 1 [] [])

/-- Claim C8: the delta run decoder is deterministic; it is a pure function of
the bytes of its input (given the same bit-level float decoder), so equal
inputs give bit-identical outputs. -/
theorem C8_deterministic :
    ∀ (dec : List Byte → ℚ) (file1 file2 : List Byte),
      file1 = file2 → chConverter dec file1 = chConverter dec file2 := by
  intro dec file1 file2 h
  rw [h]

/-- Witness for C8 at a concrete file. -/
theorem C8_deterministic_witness :
    chConverter (fun _ => (0 : ℚ)) [0, 1, 2] = chConverter (fun _ => (0 : ℚ)) [0, 1, 2] :=
  C8_deterministic (fun _ => (0 : ℚ)) [0, 1, 2] [0, 1, 2] rfl

/-- Claim C9: when the delta decoder reaches the `(0, 0)` terminator, the
number of samples returned equals the sum of the `runLength` bytes of the run
records read before it: every delta entry, direct or escaped, contributes
exactly one sample. -/
theorem C9_length_eq_runSum :
    ∀ (scale : ℚ) (s : List Byte) (d : List ℚ),
      chConverterCore scale s = .ok d → ∃ k, runSum s = some k ∧ d.length = k := by
  intro scale s d h
  obtain ⟨k, hk1, hk2⟩ := chLoop_ok_runSum scale s.length s le_rfl [] d h
  exact ⟨k, hk1, by simpa using hk2⟩

/-- Witness for C9: the stream with one run of length 1 returns one sample,
matching the run-length sum 1. -/
theorem C9_length_eq_runSum_witness :
    ∃ k, runSum ([1, 1, 0, 5, 0, 0] : List Byte) = some k ∧ ([10] : List ℚ).length = k := by
  have heval : chConverterCore (2 : ℚ) [1, 1, 0, 5, 0, 0] = .ok [10] := by
    unfold chConverterCore
    have h1 : readEntry (2 : ℚ) [] [0, 5, 0, 0] = some ([10], [0, 0]) := by
      rw [readEntry_first _ _ _ _ (by decide), show int16OfBytes 0 5 = 5 from by decide]
      norm_num
    have hr : chRun (2 : ℚ) 1 [] [0, 5, 0, 0] = .ok ([10], [0, 0]) := by
      rw [chRun_succ_some _ _ _ _ _ _ h1]
      exact chRun_zero _ _ _
    rw [chLoop_step_ok _ _ _ _ _ _ _ (by decide) hr]
    exact chLoop_term _ _ _
  exact C9_length_eq_runSum 2 [1, 1, 0, 5, 0, 0] [10] heval

/-- Claim C10: a run header with nonzero flag byte and zero run length
contributes no samples and does not terminate decoding, and the flag byte
value never influences the decoded samples: any two nonterminal headers with
the same run length decode identically. -/
theorem C10_flag_byte_irrelevant :
    (∀ (scale : ℚ) (data : List ℚ) (f : Byte) (rest : List Byte),
        f ≠ (0 : Byte) →
        chLoop scale data (f :: (0 : Byte) :: rest) = chLoop scale data rest)
    ∧ (∀ (scale : ℚ) (data : List ℚ) (f f' nrecs : Byte) (rest : List Byte),
        ¬(f = (0 : Byte) ∧ nrecs = (0 : Byte)) →
        ¬(f' = (0 : Byte) ∧ nrecs = (0 : Byte)) →
        chLoop scale data (f :: nrecs :: rest) = chLoop scale data (f' :: nrecs :: rest)) := by
  constructor
  · intro scale data f rest hf
    exact chLoop_step_ok scale data data f 0 rest rest (fun hc => hf hc.1)
      (chRun_zero scale data rest)
  · intro scale data f f' nrecs rest h h'
    conv_lhs => unfold chLoop
    conv_rhs => unfold chLoop
    rw [if_neg h, if_neg h']

/-- Witness for C10: a concrete header `(7, 0)` is skipped without producing
samples, leaving decoding of the remaining stream, which then terminates. -/
theorem C10_flag_byte_irrelevant_witness :
    chLoop (1 : ℚ) [] [7, 0, 0, 0] = chLoop (1 : ℚ) [] [0, 0] :=
  C10_flag_byte_irrelevant.1 1 [] 7 [0, 0] (by decide)

/-- Start position of the sample data in a variant-A file
(`CHFile.data_start`, src line 74). -/
def data_start : ℕ := 6144

/-- File format versions supported by the header decoder
(`CHFile.supported_versions`, src line 76). -/
def supported_versions : List ℕ := [179]

/-- Errors of variant-A header decoding.  The source raises `ValueError` for
an unsupported version ("Unsupported file version ..."), `struct.error` on
short reads and `ValueError` from `strptime`; names follow the spec. -/
inductive HeaderError
  | truncated
  | versionParse
  | unsupportedVersion
  | dateParse
  deriving DecidableEq, Repr

/-- Read `n` bytes at absolute offset `pos` of the file (`file_.seek(pos)`
followed by `file_.read(n)`); `none` when fewer than `n` bytes are available,
in which case `struct.unpack` raises on the short result. -/
def readBytes (f : List Byte) (pos n : ℕ) : Option (List Byte) :=
  if pos + n ≤ f.length then some ((f.drop pos).take n) else none

/-- Field kinds of the metadata table (the type column of `CHFile.fields`,
src lines 53-72).  The constants `UINT16` and `ENDIAN` are referenced but not
defined under src; their widths and big-endianness are modelled from the
spec ("read the exact byte width implied by the format ... big-endian for the
multi-byte scalar fields"). -/
inductive FieldKind
  | uint16
  | xtime
  | utf16
  | float64
  deriving DecidableEq, Repr

/-- Decoded metadata value.  Numeric float fields keep their raw bytes: no
claim depends on the numeric value of an IEEE-754 bit pattern, and bit-level
float decoding is outside the embedding. -/
inductive FieldValue
  | intVal (z : ℤ)
  | strVal (units : List ℕ)
  | xtimeRaw (bs : List Byte)
  | floatRaw (bs : List Byte)
  | dateVal (units : List ℕ)
  deriving DecidableEq, Repr

/-- The metadata field table (`CHFile.fields`, src lines 53-72): name, byte
offset and kind of every header field. -/
def fields : List (String × ℕ × FieldKind) :=
  [("sequence_line_or_injection", 252, .uint16),
   ("injection_or_sequence_line", 256, .uint16),
   ("start_time", 282, .xtime),
   ("end_time", 286, .xtime),
   ("version_string", 326, .utf16),
   ("description", 347, .utf16),
   ("sample", 858, .utf16),
   ("operator", 1880, .utf16),
   ("date", 2391, .utf16),
   ("inlet", 2492, .utf16),
   ("instrument", 2533, .utf16),
   ("method", 2574, .utf16),
   ("software version", 3601, .utf16),
   ("software name", 3089, .utf16),
   ("software revision", 3802, .utf16),
   ("units", 4172, .utf16),
   ("detector", 4213, .utf16),
   ("yscaling", 4732, .float64)]

/-- Big-endian unsigned integer value of a byte string. -/
def beNat (bs : List Byte) : ℕ :=
  bs.foldl (fun acc b => acc * 256 + b.val) 0

/-- UTF-16LE code units of a raw byte string (two bytes per unit). -/
def utf16Units : List Byte → List ℕ
  | lo :: hi :: rest => (lo.val + 256 * hi.val) :: utf16Units rest
  | _ => []

/-- Modelled from the spec: the helper `parse_utf16_string` is called by
`CHFile._parse_header` but missing from src; per spec section 4.1 a UTF-16
string field is length-prefixed (one length byte, then two-byte code units).
Returns the decoded code units together with the reads performed, each as an
(offset, length) pair. -/
def parseUtf16String (f : List Byte) (off : ℕ) :
    Except HeaderError (List ℕ) × List (ℕ × ℕ) :=
  match readBytes f off 1 with
  | none => (.error .truncated, [(off, 1)])
  | some lb =>
    match readBytes f (off + 1) (2 * lb.headI.val) with
    | none => (.error .truncated, [(off, 1), (off + 1, 2 * lb.headI.val)])
    | some cb => (.ok (utf16Units cb), [(off, 1), (off + 1, 2 * lb.headI.val)])

/-- Read one metadata field at its offset (`CHFile._parse_header`, src lines
102-109): seek to the offset, then read and interpret according to the kind.
Returns the value (or error) and the log of reads performed. -/
def readField (f : List Byte) (off : ℕ) :
    FieldKind → Except HeaderError FieldValue × List (ℕ × ℕ)
  | .utf16 =>
    match parseUtf16String f off with
    | (.ok u, rds) => (.ok (.strVal u), rds)
    | (.error e, rds) => (.error e, rds)
  | .uint16 =>
    match readBytes f off 2 with
    | none => (.error .truncated, [(off, 2)])
    | some bs => (.ok (.intVal (beNat bs)), [(off, 2)])
  | .xtime =>
    match readBytes f off 4 with
    | none => (.error .truncated, [(off, 4)])
    | some bs => (.ok (.xtimeRaw bs), [(off, 4)])
  | .float64 =>
    match readBytes f off 8 with
    | none => (.error .truncated, [(off, 8)])
    | some bs => (.ok (.floatRaw bs), [(off, 8)])

/-- The field-table loop of `CHFile._parse_header` (src lines 101-109),
accumulating named values and the log of reads; a failed field read aborts. -/
def parseFields (f : List Byte) :
    List (String × ℕ × FieldKind) →
      Except HeaderError (List (String × FieldValue)) × List (ℕ × ℕ)
  | [] => (.ok [], [])
  | (name, off, kind) :: rest =>
    match readField f off kind with
    | (.error e, rds) => (.error e, rds)
    | (.ok v, rds) =>
      match parseFields f rest with
      | (.error e, rds') => (.error e, rds ++ rds')
      | (.ok md, rds') => (.ok ((name, v) :: md), rds ++ rds')

/-- ASCII digit string to a natural number (Python `int(...)` applied to the
version bytes); `none` when the bytes are not a plain digit string. -/
def parseAsciiNat (bs : List Byte) : Option ℕ :=
  if bs ≠ [] ∧ ∀ b ∈ bs, 48 ≤ b.val ∧ b.val ≤ 57 then
    some (bs.foldl (fun acc b => acc * 10 + (b.val - 48)) 0)
  else none

/-- Result of header decoding: the metadata mapping (or the error) plus the
complete log of byte reads performed, each as an (offset, length) pair. -/
structure HeaderOut where
  result : Except HeaderError (List (String × FieldValue))
  reads : List (ℕ × ℕ)

/-- `CHFile._parse_header` (src lines 91-112): read one length byte at offset
0 and `length` ASCII bytes after it, parse them as the integer version, and
fail with `unsupportedVersion` before anything else when the version is not in
`supported_versions`; otherwise walk the field table, then validate the `date`
field and store the derived `datetime`.  Calendar parsing (`time.strptime`)
is the boolean parameter `dateOk`; a failing date check is the fatal
`dateParse` error, as the uncaught `ValueError` of the source. -/
def parse_header (dateOk : List ℕ → Bool) (f : List Byte) : HeaderOut :=
  match readBytes f 0 1 with
  | none => ⟨.error .truncated, [(0, 1)]⟩
  | some lb =>
    match readBytes f 1 lb.headI.val with
    | none => ⟨.error .truncated, [(0, 1), (1, lb.headI.val)]⟩
    | some vb =>
      match parseAsciiNat vb with
      | none => ⟨.error .versionParse, [(0, 1), (1, lb.headI.val)]⟩
      | some v =>
        if v ∉ supported_versions then
          ⟨.error .unsupportedVersion, [(0, 1), (1, lb.headI.val)]⟩
        else
          match parseFields f fields with
          | (.error e, rds) => ⟨.error e, [(0, 1), (1, lb.headI.val)] ++ rds⟩
          | (.ok md, rds) =>
            match (("magic_number_version", FieldValue.intVal v) :: md).lookup "date" with
            | some (.strVal u) =>
              if dateOk u then
                ⟨.ok ((("magic_number_version", FieldValue.intVal v) :: md) ++
                    [("datetime", .dateVal u)]),
                  [(0, 1), (1, lb.headI.val)] ++ rds⟩
              else ⟨.error .dateParse, [(0, 1), (1, lb.headI.val)] ++ rds⟩
            | _ => ⟨.error .dateParse, [(0, 1), (1, lb.headI.val)] ++ rds⟩

/-- `CHFile._parse_data` (src lines 177-185): `n_points` is the Python floor
division `(totalLength - data_start) // 8`, and the result maps each of the
`n_points` consecutive 8-byte groups after `data_start` through the IEEE-754
float64 reader `dec` (kept as a parameter) and multiplies by
`metadata["yscaling"]`.  For a file shorter than `data_start`, Python's
negative `n_points` makes `numpy.fromfile` read all of the (empty) region
after `data_start`, again zero samples, so truncated `ℕ` subtraction and
division agree with the source on every file length. -/
def parse_data (dec : List Byte → ℚ) (yscaling : ℚ) (f : List Byte) : List ℚ :=
  (List.range ((f.length - data_start) / 8)).map
    fun i => dec ((f.drop (data_start + 8 * i)).take 8) * yscaling

/-- `numpy.linspace(start, stop, num)` with the default inclusive endpoint,
as called by `CHFile.times`: `num` evenly spaced points from `start` to
`stop`; one point is `[start]`, zero points the empty list. -/
def linspace (a b : ℚ) : ℕ → List ℚ
  | 0 => []
  | 1 => [a]
  | n + 2 => (List.range (n + 2)).map fun (i : ℕ) => a + (i : ℚ) * ((b - a) / ((n : ℚ) + 1))

/-- `CHFile.times` (src lines 187-191): the lazily derived time axis, one
point per sample, linearly spaced from `metadata["start_time"]` to
`metadata["end_time"]`. -/
def times (start_time end_time : ℚ) (values : List ℚ) : List ℚ :=
  linspace start_time end_time values.length

theorem linspace_length (a b : ℚ) : ∀ n : ℕ, (linspace a b n).length = n
  | 0 => rfl
  | 1 => rfl
  | n + 2 => by
    unfold linspace
    rw [List.length_map, List.length_range]

/-- Claim C5: whenever the leading length-prefixed ASCII version string parses
to an integer other than 179, header decoding fails with
`unsupportedVersion`, and the only reads performed are the version length
byte at offset 0 and the version string after it: no field-table read
occurs. -/
theorem C5_version_gate :
    ∀ (dateOk : List ℕ → Bool) (f lb vb : List Byte) (v : ℕ),
      readBytes f 0 1 = some lb →
      readBytes f 1 lb.headI.val = some vb →
      parseAsciiNat vb = some v →
      v ≠ 179 →
      parse_header dateOk f =
        ⟨.error .unsupportedVersion, [(0, 1), (1, lb.headI.val)]⟩ := by
  intro dateOk f lb vb v h1 h2 h3 h4
  unfold parse_header
  rw [h1]
  dsimp only
  rw [h2]
  dsimp only
  rw [h3]
  dsimp only
  rw [if_pos (by simp [supported_versions, h4])]

/-- Witness for C5: a header whose version string is the single ASCII digit
`1` (value 1, not 179) fails with `unsupportedVersion` after reading only the
two version reads. -/
theorem C5_version_gate_witness :
    parse_header (fun _ => true) [1, 49] =
      ⟨.error .unsupportedVersion, [(0, 1), (1, 1)]⟩ :=
  C5_version_gate (fun _ => true) [1, 49] [1] [49] 1 rfl rfl rfl (by decide)

/-- Claim C3 counterexample: on a file of total length 6153 the byte count
after the data start (9) is not a multiple of 8, yet the decoder does not
fail: `_parse_data` floor-divides and returns one sample (its return type in
the source has no failure path at all; `numpy.fromfile` silently ignores the
trailing remainder bytes). -/
theorem C3_counterexample :
    (parse_data (fun _ => (0 : ℚ)) 1 (List.replicate 6153 (0 : Byte))).length = 1
    ∧ (6153 - data_start) % 8 ≠ 0 := by
  constructor
  · unfold parse_data
    rw [List.length_map, List.length_range, List.length_replicate]
    norm_num [data_start]
  · norm_num [data_start]

/-- Claim C3 as amended: the sample count is the floor
`(totalLength - dataStartOffset) / 8`; a fractional remainder is silently
dropped (decoding never fails, there is no `TruncatedData` error path). -/
theorem C3_sample_count :
    ∀ (dec : List Byte → ℚ) (ys : ℚ) (f : List Byte),
      (parse_data dec ys f).length = (f.length - data_start) / 8 := by
  intro dec ys f
  unfold parse_data
  rw [List.length_map, List.length_range]

/-- Claim C6: for a variant-A file holding exactly N 8-byte samples after the
data-start offset, the decoder returns exactly N samples, and each equals
`yscaling` times the float64 value decoded from the corresponding stored
8-byte group, with no further transformation (`dec` ranges over all possible
bit-level float readers). -/
theorem C6_raw_sample_array :
    ∀ (dec : List Byte → ℚ) (ys : ℚ) (f : List Byte) (N : ℕ),
      f.length = data_start + 8 * N →
      (parse_data dec ys f).length = N ∧
      ∀ i : ℕ, i < N →
        (parse_data dec ys f).get? i =
          some (ys * dec ((f.drop (data_start + 8 * i)).take 8)) := by
  intro dec ys f N h
  have hn : (f.length - data_start) / 8 = N := by
    rw [h]
    omega
  constructor
  · unfold parse_data
    rw [List.length_map, List.length_range, hn]
  · intro i hi
    unfold parse_data
    rw [List.get?_map, List.get?_range (by rw [hn]; exact hi)]
    simp only [Option.map_some']
    rw [mul_comm]

/-- Witness for C6: a file of exactly one 8-byte sample after the header
yields one sample equal to the scale times the decoded value. -/
theorem C6_raw_sample_array_witness :
    (parse_data (fun _ => (3 : ℚ)) 2 (List.replicate 6152 (0 : Byte))).length = 1
    ∧ (parse_data (fun _ => (3 : ℚ)) 2 (List.replicate 6152 (0 : Byte))).get? 0 =
        some 6 := by
  have h := C6_raw_sample_array (fun _ => (3 : ℚ)) 2 (List.replicate 6152 (0 : Byte)) 1
    (by rw [List.length_replicate]; norm_num [data_start])
  refine ⟨h.1, ?_⟩
  have h2 := h.2 0 (by norm_num)
  rw [h2]
  norm_num

/-- Claim C7: the derived time axis has exactly one point per sample, starts
at `start_time`, ends at `end_time`, has uniform spacing
`(end_time - start_time) / (sampleCount - 1)`, and for `start_time = 0`,
`end_time = 10` and 11 samples it is exactly `[0, 1, ..., 10]`. -/
theorem C7_time_axis :
    (∀ (a b : ℚ) (values : List ℚ), (times a b values).length = values.length)
    ∧ (∀ (a b : ℚ) (n : ℕ), 1 ≤ n → (linspace a b n).head? = some a)
    ∧ (∀ (a b : ℚ) (n : ℕ), 2 ≤ n → (linspace a b n).getLast? = some b)
    ∧ (∀ (a b : ℚ) (n i : ℕ), 2 ≤ n →
        ∀ (h1 : i < (linspace a b n).length) (h2 : i + 1 < (linspace a b n).length),
          (linspace a b n).get ⟨i + 1, h2⟩ - (linspace a b n).get ⟨i, h1⟩ =
            (b - a) / ((n : ℚ) - 1))
    ∧ linspace 0 10 11 = [0, 1, 2, 3, 4, 5, 6, 7, 8, 9, 10] := by
  refine ⟨?_, ?_, ?_, ?_, ?_⟩
  · intro a b values
    unfold times
    exact linspace_length a b values.length
  · intro a b n hn
    match n with
    | 1 => rfl
    | m + 2 =>
      unfold linspace
      dsimp only
      rw [List.range_succ_eq_map, List.map_cons, List.head?_cons]
      norm_num
  · intro a b n hn
    match n with
    | m + 2 =>
      unfold linspace
      dsimp only
      rw [List.range_succ, List.map_append, List.map_singleton, List.getLast?_append,
        List.getLast?_singleton, Option.or_some]
      have hne : ((m : ℚ) + 1) ≠ 0 := by positivity
      rw [Option.some.injEq]
      field_simp
  · intro a b n i hn h1 h2
    obtain ⟨m, rfl⟩ : ∃ m, n = m + 2 := ⟨n - 2, by omega⟩
    simp only [linspace, List.get_eq_getElem, List.getElem_map, List.getElem_range] at h1 h2 ⊢
    push_cast
    have hd : ((m : ℚ) + 2) - 1 = (m : ℚ) + 1 := by ring
    rw [hd]
    ring
  · unfold linspace
    simp [List.range_succ]
    norm_num

/-- Witness for C7: the 11-point axis from 0 to 10 ends exactly at 10. -/
theorem C7_time_axis_witness :
    (linspace (0 : ℚ) 10 11).getLast? = some 10 :=
  C7_time_axis.2.2.1 0 10 11 (by norm_num)

end Agilent
